import Mathlib

/-!
Verification of the mountie mount monitor against its specification.

The definitions below are a shallow embedding of the TypeScript sources
src/Mountie.ts, src/FolderDeletionWatcher.ts and src/Functions.ts.
JavaScript objects with string keys are embedded as association lists in
key-insertion order, JavaScript strings as Lean strings operated on through
their character lists, and the asynchronous parts (poll loop, event
emission, promise resolution) as explicit state passing over small state
records.  Machine numbers in the sources (sizes, durations) are embedded as
integers, which is exact for the integral values the program manipulates.
-/

namespace Mountie

/-- Embedding of the JavaScript string method startsWith: the receiver s
begins with the argument, compared over the character sequence. -/
def jsStartsWith (s p : String) : Bool := p.data.isPrefixOf s.data

/-- Embedding of the JavaScript string property length over the character
sequence (identical to UTF-16 length for the ASCII paths the program uses). -/
def jsLength (s : String) : Nat := s.data.length

/-- Embedding of String.prototype.toUpperCase, character by character. -/
def jsToUpperCase (s : String) : String := ⟨s.data.map Char.toUpper⟩

/-- Embedding of String.prototype.toLowerCase, character by character. -/
def jsToLowerCase (s : String) : String := ⟨s.data.map Char.toLower⟩

/-- Embedding of the expression path.split(Path.sep).pop() used for the
label fallback in getNewState: the suffix of the string after its last
path separator. -/
def splitPopAux : List Char → List Char → List Char
  | [], acc => acc
  | c :: cs, acc => if c = '/' then splitPopAux cs [] else splitPopAux cs (acc ++ [c])

/-- The last component of a separator-split string, see splitPopAux. -/
def jsSplitPop (s : String) : String := ⟨splitPopAux s.data []⟩

/-- A JavaScript object with string keys, embedded as an association list
in key-insertion order (keys are unique for every object the program
builds, since all writes go through objSet starting from the empty object). -/
abbrev ObjMap (α : Type) := List (String × α)

/-- Property read obj[k]: the value at key k, none when absent. -/
def objGet (m : ObjMap α) (k : String) : Option α :=
  match m with
  | [] => none
  | (k2, v) :: rest => if k2 = k then some v else objGet rest k

/-- Property write obj[k] = v: replaces in place when the key exists,
appends otherwise, matching JavaScript key enumeration order. -/
def objSet (m : ObjMap α) (k : String) (v : α) : ObjMap α :=
  match m with
  | [] => [(k, v)]
  | (k2, v2) :: rest => if k2 = k then (k2, v) :: rest else (k2, v2) :: objSet rest k v

/-- Property removal delete obj[k]. -/
def objDelete (m : ObjMap α) (k : String) : ObjMap α :=
  match m with
  | [] => []
  | (k2, v2) :: rest => if k2 = k then objDelete rest k else (k2, v2) :: objDelete rest k

/-- Object.values(obj), in key-insertion order. -/
def objValues (m : ObjMap α) : List α := m.map Prod.snd

/-- The size record of a FileSystem value (Mountie.ts lines 40-44). -/
structure FsSize where
  available : Int
  total : Int
  used : Int
deriving DecidableEq

/-- The FileSystem value type (Mountie.ts lines 31-46).  The mountpoint
field is declared string-or-undefined in the source but every value the
program constructs carries a string (getNewState always sets it and every
use site asserts it non-null), so it is embedded as a plain string. -/
structure FileSystem where
  device : String
  label : String
  filesystem : String
  model : Option String
  mountpoint : String
  mounted : Bool
  protocol : String
  serial : Option String
  size : FsSize
  uuid : String
deriving DecidableEq

/-- The FileSystemEvent tagged union (Mountie.ts lines 48-53). -/
inductive FileSystemEvent where
  | mount (filesystem : FileSystem)
  | rename (filesystem : FileSystem) (oldFilesystem : FileSystem)
  | unmount (filesystem : FileSystem)
deriving DecidableEq

/-- Whether an event is a mount event. -/
def isMountEvent : FileSystemEvent → Bool
  | .mount _ => true
  | _ => false

/-- The process.platform values distinguished by the program. -/
inductive Platform where
  | darwin
  | linux
  | win32
deriving DecidableEq

/-- Lexicographic comparison of character lists by code point, the
embedding of the ASCII fragment of localeCompare as used by the sort
comparators. -/
def listCharLe : List Char → List Char → Bool
  | [], _ => true
  | _ :: _, [] => false
  | a :: as, b :: bs => if a = b then listCharLe as bs else decide (a.toNat < b.toNat)

/-- The sort key of a filesystem under sortFilesystems (Mountie.ts lines
265-285): on darwin the label with empty labels read as Untitled, on the
other platforms the mountpoint when mounted else the device, in both
cases upper-cased. -/
def sortKey (p : Platform) (fs : FileSystem) : String :=
  match p with
  | .darwin => jsToUpperCase (if fs.label = "" then "Untitled" else fs.label)
  | _ => jsToUpperCase (if fs.mounted then fs.mountpoint else fs.device)

/-- The comparator of sortFilesystems as a boolean order on entries. -/
def fsLe (p : Platform) (a b : FileSystem) : Bool :=
  listCharLe (sortKey p a).data (sortKey p b).data

/-- Stable insertion of one entry into an already sorted list: the new
entry goes after every entry that compares less-or-equal, which together
with the fold below reproduces the output of the stable Array sort of the
source for the total preorder given by the comparator. -/
def insertSorted (p : Platform) (fs : FileSystem) : List FileSystem → List FileSystem
  | [] => [fs]
  | g :: gs => if fsLe p g fs then g :: insertSorted p fs gs else fs :: g :: gs

/-- Embedding of sortFilesystems (Mountie.ts lines 265-285) as a stable
sort under the platform comparator. -/
def sortFilesystems (p : Platform) (l : List FileSystem) : List FileSystem :=
  l.foldl (fun acc fs => insertSorted p fs acc) []

/-- The state getter (Mountie.ts line 167): the sorted values of the
mountpoint-keyed filesystem map. -/
def stateOf (p : Platform) (m : ObjMap FileSystem) : List FileSystem :=
  sortFilesystems p (objValues m)

/-- The uuidFilesystemMap reduce of the poll loop (Mountie.ts line 97):
the new snapshot indexed by uuid, later entries overwriting earlier ones. -/
def uuidFilesystemMap (newState : List FileSystem) : ObjMap FileSystem :=
  newState.foldl (fun R fs => objSet R fs.uuid fs) []

/-- The mount pass of one poll cycle (Mountie.ts lines 99-107): for each
entry whose mountpoint is a directory and has no entry in the current
mountpoint-keyed map, push a mount event.  The directory oracle stands for
the isDirectory collaborator.  The list argument is the order in which the
awaited closures of the Promise.all resume, that is the completion order
of the concurrent directory checks: a permutation of the new snapshot, not
necessarily the snapshot order itself, since the runtime does not
serialize the stat completions.  Only the membership and count content of
the result is independent of that schedule. -/
def mountPass (isDir : String → Bool) (filesystemMap : ObjMap FileSystem)
    (completionOrder : List FileSystem) : List FileSystemEvent :=
  completionOrder.filterMap (fun fs =>
    if isDir fs.mountpoint && (objGet filesystemMap fs.mountpoint).isNone
    then some (.mount fs) else none)

/-- The loop body of the unmount and rename pass (Mountie.ts lines
110-117): look the uuid of one old-state entry up in the new snapshot;
absent yields an unmount event, present with a different label yields a
rename event, present with the same label yields nothing. -/
def unmountRenameStep (uuidMap : ObjMap FileSystem) (o : FileSystem) :
    Option FileSystemEvent :=
  match objGet uuidMap o.uuid with
  | none => some (.unmount o)
  | some fs => if fs.label = o.label then none else some (.rename fs o)

/-- The unmount and rename pass of one poll cycle (Mountie.ts lines
110-117), pushing the per-entry results in old-state order. -/
def unmountRenamePass (uuidMap : ObjMap FileSystem)
    (oldState : List FileSystem) : List FileSystemEvent :=
  oldState.filterMap (unmountRenameStep uuidMap)

/-- One diff cycle of the monitor (Mountie.ts lines 96-117) specialized to
the directory checks completing in call order: the mount pass over the new
snapshot followed by the unmount and rename pass over the sorted current
state.  diffEventsWithSchedule below generalizes to an arbitrary
completion order; the theorems stated over this specialization use it only
through membership and count content, which is the same for every
completion order that permutes the snapshot. -/
def diffEvents (p : Platform) (isDir : String → Bool)
    (filesystemMap : ObjMap FileSystem) (newState : List FileSystem) :
    List FileSystemEvent :=
  mountPass isDir filesystemMap newState ++
    unmountRenamePass (uuidFilesystemMap newState) (stateOf p filesystemMap)

/-- One diff cycle of the monitor (Mountie.ts lines 96-117) with an
explicit completion order for the concurrent directory checks of the mount
pass: the awaited Promise.all pushes mount events as each check resumes,
in that order, and only then does the unmount and rename pass run over the
sorted current state.  A run of the source corresponds to a completion
order that is some permutation of the new snapshot. -/
def diffEventsWithSchedule (p : Platform) (isDir : String → Bool)
    (filesystemMap : ObjMap FileSystem)
    (newState completionOrder : List FileSystem) : List FileSystemEvent :=
  mountPass isDir filesystemMap completionOrder ++
    unmountRenamePass (uuidFilesystemMap newState) (stateOf p filesystemMap)

/-- A block device record as consumed from the snapshot provider
(systeminformation blockDevices), restricted to the fields getNewState
reads. -/
structure BlockDevice where
  name : String
  label : String
  protocol : String
  serial : String
  uuid : String
deriving DecidableEq

/-- A raw filesystem entry as consumed from the snapshot provider
(systeminformation fsSize), restricted to the fields getNewState reads. -/
structure RawFs where
  fs : String
  mount : String
  type : String
  available : Int
  size : Int
  used : Int
deriving DecidableEq

/-- The deviceMap reduce of getNewState (Mountie.ts line 236): the block
devices indexed by name, later entries overwriting earlier ones. -/
def deviceMapOf (devices : List BlockDevice) : ObjMap BlockDevice :=
  devices.foldl (fun R dev => objSet R dev.name dev) []

/-- The per-entry construction of a FileSystem value in getNewState
(Mountie.ts lines 244-259).  The v5 parameter stands for the external
name-based UUID derivation applied under the fixed namespace constant
UUID_NAMESPACE; each field repeats the deviceMap presence test exactly as
the source does. -/
def mkFileSystem (v5 : String → String) (deviceMap : ObjMap BlockDevice)
    (filesystem : RawFs) : FileSystem :=
  ⟨filesystem.fs,
    (match objGet deviceMap filesystem.fs with
      | some dev => dev.label
      | none => jsSplitPop filesystem.fs),
    (match objGet deviceMap filesystem.fs with
      | some _ => filesystem.type
      | none => "SMB"),
    none,
    filesystem.mount,
    true,
    (match objGet deviceMap filesystem.fs with
      | some dev => dev.protocol
      | none => "SMB"),
    (match objGet deviceMap filesystem.fs with
      | some dev => if dev.serial = "" then none else some dev.serial
      | none => none),
    ⟨filesystem.available, filesystem.size, filesystem.used⟩,
    (match objGet deviceMap filesystem.fs with
      | some dev => jsToLowerCase dev.uuid
      | none => v5 filesystem.fs)⟩

/-- The mutable instance state of a Mountie object: the running flag
(truthiness of the abort controller, Mountie.ts line 166), the
mountpoint-keyed filesystem map (line 61), and the number of pending
one-shot refresh listeners registered through once (line 191). -/
structure MountieState where
  running : Bool
  filesystemMap : ObjMap FileSystem
  refreshOnce : Nat
deriving DecidableEq

/-- The state getter of an instance (Mountie.ts line 167). -/
def instanceState (p : Platform) (m : MountieState) : List FileSystem :=
  stateOf p m.filesystemMap

/-- The asynchronous iterator (Mountie.ts lines 76-87): yields one
synthetic mount event per entry of the current state, in state order, then
every later event emitted on the all channel, here given as the list of
live events.  The first component is the instance state after the iterator
body has begun: the body reads state and subscribes but never calls start,
so the state is returned unchanged. -/
def asyncIterator (p : Platform) (m : MountieState)
    (live : List FileSystemEvent) : MountieState × List FileSystemEvent :=
  (m, (instanceState p m).map (fun fs => .mount fs) ++ live)

/-- nextRefresh (Mountie.ts lines 189-195): while running, registers a
one-shot refresh listener whose resolution releases the caller and returns
normally; while stopped, throws the not-running error.  Neither branch
touches the running flag or the filesystem map. -/
def nextRefresh (m : MountieState) : Except String Unit × MountieState :=
  if m.running
  then (Except.ok (), ⟨m.running, m.filesystemMap, m.refreshOnce + 1⟩)
  else (Except.error "Mountie is not running", m)

/-- The refresh emission at the end of a poll cycle (Mountie.ts line 124):
every pending one-shot refresh listener resolves; the second component
counts how many resolved. -/
def emitRefresh (m : MountieState) : MountieState × Nat :=
  (⟨m.running, m.filesystemMap, 0⟩, m.refreshOnce)

/-- The fixed poll interval constant INTERVAL_LENGTH (Mountie.ts line 15),
in milliseconds. -/
def INTERVAL_LENGTH : Int := 10000

/-- The sleepDuration local computed at the end of a poll iteration
(Mountie.ts line 130) from the elapsed time of the cycle. -/
def sleepDuration (elapsed : Int) : Int :=
  max (INTERVAL_LENGTH / 2) (INTERVAL_LENGTH - elapsed)

/-- The duration argument actually passed to sleep on the next line
(Mountie.ts line 131), which is the bare interval constant for every
elapsed time. -/
def monitorSleepArg (_elapsed : Int) : Int :=
  INTERVAL_LENGTH

/-- One level of the ancestor watch chain built by startParent
(FolderDeletionWatcher.ts lines 89-118): a native watch on parentPath
reacting to notifications whose affected name equals filename. -/
structure WatchLevel where
  parentPath : String
  filename : String
deriving DecidableEq

/-- The ancestor chain built by the recursion of startParent: one level
per directory from the watched path upward, stopping at a path equal to
its own parent; dirname and basename stand for the path utilities and the
fuel bounds the recursion depth.  Levels appear in setup order, outermost
ancestor first, as the source recurses before installing its own watch. -/
def ancestorLevels (dirname basename : String → String) :
    Nat → String → List WatchLevel
  | 0, _ => []
  | fuel + 1, path =>
    let parentPath := dirname path
    let filename := basename path
    if path = parentPath then []
    else ancestorLevels dirname basename fuel parentPath ++ [⟨parentPath, filename⟩]

/-- The shared completion context of one watcher chain
(FolderDeletionWatcher.ts lines 95-101 and 128-143): whether the shared
promise has resolved, and how many times the completion callback
registered on it has run. -/
structure SharedSignal where
  resolved : Bool
  callbackFires : Nat
deriving DecidableEq

/-- Resolution of the shared promise: a promise resolves at most once, and
its then-continuation (stop the watcher, invoke the callback) runs exactly
on the first resolution. -/
def resolveShared (st : SharedSignal) : SharedSignal :=
  if st.resolved then st else ⟨true, st.callbackFires + 1⟩

/-- The native watch callback installed at one chain level
(FolderDeletionWatcher.ts lines 104-108): on a rename notification whose
affected file equals the filename watched at this level, resolve the
shared context. -/
def watchCallback (lv : WatchLevel) (event affectedFile : String)
    (st : SharedSignal) : SharedSignal :=
  if event = "rename" ∧ affectedFile = lv.filename
  then resolveShared st else st

/-- A notification delivered to one chain level: the level it reaches, the
native event kind and the affected file name. -/
abbrev WatchNotification := WatchLevel × String × String

/-- Delivery of a sequence of native notifications, in the order the
runtime schedules them, to an initially unresolved chain. -/
def runWatcherTrace (trace : List WatchNotification) : SharedSignal :=
  trace.foldl (fun st n => watchCallback n.1 n.2.1 n.2.2 st) ⟨false, 0⟩

/-- The process-level system state relevant to the deletion-watcher
registry: the running flag and filesystem map of the monitor instance and
the key set of the module-level deletionWatchers object (Mountie.ts line
55), in insertion order. -/
structure Sys where
  running : Bool
  filesystemMap : ObjMap FileSystem
  deletionWatchers : List String
deriving DecidableEq

/-- Key insertion into the registry object, as performed by the assignment
in onMount: existing keys keep their slot, new keys append. -/
def regAdd (l : List String) (k : String) : List String :=
  if k ∈ l then l else l ++ [k]

/-- Key removal from the registry object, as performed by delete in
onUnmount. -/
def regDel (l : List String) (k : String) : List String :=
  l.filter (fun x => x ≠ k)

/-- The mount handler (Mountie.ts lines 136-148): stores the filesystem
under its mountpoint and registers a deletion watcher under the same key. -/
def onMount (fs : FileSystem) (s : Sys) : Sys :=
  ⟨s.running, objSet s.filesystemMap fs.mountpoint fs,
    regAdd s.deletionWatchers fs.mountpoint⟩

/-- The unmount handler (Mountie.ts lines 159-164): removes the map entry
at the mountpoint, then calls stop on the registry entry at that key and
deletes it.  The registry read is unguarded, so a missing entry makes the
member call throw: that outcome is the none result. -/
def onUnmount (fs : FileSystem) (s : Sys) : Option Sys :=
  if fs.mountpoint ∈ s.deletionWatchers
  then some ⟨s.running, objDelete s.filesystemMap fs.mountpoint,
    regDel s.deletionWatchers fs.mountpoint⟩
  else none

/-- The rename handler (Mountie.ts lines 150-157): the unmount handler on
the old record when it is marked mounted, then the mount handler on the
new record when it is marked mounted. -/
def onRename (fs oldFs : FileSystem) (s : Sys) : Option Sys :=
  match (if oldFs.mounted then onUnmount oldFs s else some s) with
  | none => none
  | some s1 => some (if fs.mounted then onMount fs s1 else s1)

/-- The start transition (Mountie.ts lines 197-208): attaches the
handlers, creates the abort controller and clears the instance filesystem
map; the module-level registry is left untouched. -/
def startSys (s : Sys) : Sys :=
  ⟨true, [], s.deletionWatchers⟩

/-- The stop transition (Mountie.ts lines 210-218): detaches the handlers
and drops the abort controller, leaving both maps untouched. -/
def stopSys (s : Sys) : Sys :=
  ⟨false, s.filesystemMap, s.deletionWatchers⟩

/-- One observable transition of the monitor and registry system.  Mount,
unmount and rename steps model events reaching the attached handlers, so
they require the running flag; unmount and rename events originate in the
diff pass over the current state, so their old record is a value of the
filesystem map stored under its own mountpoint; a watcher firing runs the
callback of FolderDeletionWatcher registration (Mountie.ts lines 139-147),
which is guarded by a successful map read at the watched path. -/
inductive Step : Sys → Sys → Prop where
  | start (s : Sys) : s.running = false → Step s (startSys s)
  | stop (s : Sys) : s.running = true → Step s (stopSys s)
  | mount (s : Sys) (fs : FileSystem) : s.running = true →
      Step s (onMount fs s)
  | unmount (s s2 : Sys) (fs : FileSystem) : s.running = true →
      objGet s.filesystemMap fs.mountpoint = some fs →
      onUnmount fs s = some s2 → Step s s2
  | rename (s s2 : Sys) (fs oldFs : FileSystem) : s.running = true →
      objGet s.filesystemMap oldFs.mountpoint = some oldFs →
      onRename fs oldFs s = some s2 → Step s s2
  | watcherFire (s s2 : Sys) (path : String) (fs : FileSystem) :
      s.running = true → path ∈ s.deletionWatchers →
      objGet s.filesystemMap path = some fs →
      onUnmount fs s = some s2 → Step s s2

/-- The states the process can reach from its initial state: monitor not
running, empty filesystem map, empty registry. -/
inductive Reachable : Sys → Prop where
  | init : Reachable ⟨false, [], []⟩
  | step {s s2 : Sys} : Reachable s → Step s s2 → Reachable s2

/-- The filesystem lookup accumulator step (Mountie.ts lines 171-182):
replace the best match so far by the current entry when the entry is
mounted, strictly longer than the best so far (or there is none yet) and
its mountpoint is a prefix of the queried path. -/
def filesystemStep (path : String) (R : Option FileSystem)
    (fs : FileSystem) : Option FileSystem :=
  if fs.mounted && (match R with
      | none => true
      | some r => decide (jsLength r.mountpoint < jsLength fs.mountpoint)) &&
     jsStartsWith path fs.mountpoint
  then some fs else R

/-- The filesystem method (Mountie.ts lines 169-183): the reduce of the
lookup step over the current state. -/
def filesystem (st : List FileSystem) (path : String) : Option FileSystem :=
  st.foldl (filesystemStep path) none

/-- Whether an entry competes in the filesystem lookup for a path: mounted
with a mountpoint that is a prefix of the path. -/
def isCandidate (path : String) (fs : FileSystem) : Bool :=
  fs.mounted && jsStartsWith path fs.mountpoint

section ObjMapLemmas

variable {α : Type}

theorem objGet_objSet (m : ObjMap α) (k k2 : String) (v : α) :
    objGet (objSet m k v) k2 = if k = k2 then some v else objGet m k2 := by
  induction m with
  | nil =>
    by_cases h : k = k2 <;> simp [objGet, objSet, h]
  | cons hd tl ih =>
    obtain ⟨k3, v3⟩ := hd
    by_cases h3 : k3 = k
    · subst h3
      by_cases h : k3 = k2 <;> simp [objGet, objSet, h]
    · by_cases h : k3 = k2
      · subst h
        have : k ≠ k3 := fun hk => h3 hk.symm
        simp [objGet, objSet, h3, this]
      · simp [objGet, objSet, h3, h, ih]

theorem objGet_objDelete (m : ObjMap α) (k k2 : String) :
    objGet (objDelete m k) k2 = if k = k2 then none else objGet m k2 := by
  induction m with
  | nil => simp [objGet, objDelete]
  | cons hd tl ih =>
    obtain ⟨k3, v3⟩ := hd
    by_cases h3 : k3 = k
    · subst h3
      by_cases h : k3 = k2
      · subst h
        simp [objGet, objDelete, ih]
      · simp [objGet, objDelete, h, ih]
    · by_cases h : k3 = k2
      · subst h
        have : k ≠ k3 := fun hk => h3 hk.symm
        simp [objGet, objDelete, h3, this]
      · simp [objGet, objDelete, h3, h, ih]

end ObjMapLemmas

section GetAppend

variable {α : Type}

theorem get_append_left_eq (A B : List α) (i : Nat) (h : i < A.length)
    (h2 : i < (A ++ B).length) :
    (A ++ B).get ⟨i, h2⟩ = A.get ⟨i, h⟩ := by
  rw [List.get_eq_getElem, List.get_eq_getElem]
  exact List.getElem_append_left h

theorem get_append_right_eq (A B : List α) (i : Nat) (hge : A.length ≤ i)
    (h2 : i < (A ++ B).length) (hb : i - A.length < B.length) :
    (A ++ B).get ⟨i, h2⟩ = B.get ⟨i - A.length, hb⟩ := by
  rw [List.get_eq_getElem, List.get_eq_getElem]
  exact List.getElem_append_right hge

end GetAppend

section PassLemmas

theorem mem_mountPass {d : String → Bool} {fm : ObjMap FileSystem}
    {ns : List FileSystem} {e : FileSystemEvent} :
    e ∈ mountPass d fm ns ↔ ∃ fs, e = .mount fs ∧ fs ∈ ns ∧
      d fs.mountpoint = true ∧ objGet fm fs.mountpoint = none := by
  unfold mountPass
  rw [List.mem_filterMap]
  constructor
  · rintro ⟨a, hmem, hf⟩
    cases hd : d a.mountpoint with
    | false => simp [hd] at hf
    | true =>
      cases hget : objGet fm a.mountpoint with
      | some v => simp [hd, hget] at hf
      | none =>
        simp [hd, hget] at hf
        exact ⟨a, hf.symm, hmem, hd, hget⟩
  · rintro ⟨fs, rfl, hmem, hd, hget⟩
    refine ⟨fs, hmem, ?_⟩
    simp [hd, hget]

theorem mountPass_isMount {d : String → Bool} {fm : ObjMap FileSystem}
    {ns : List FileSystem} {e : FileSystemEvent} (h : e ∈ mountPass d fm ns) :
    isMountEvent e = true := by
  obtain ⟨fs, rfl, -, -, -⟩ := mem_mountPass.mp h
  rfl

theorem unmountRenamePass_shape {um : ObjMap FileSystem}
    {old : List FileSystem} {e : FileSystemEvent}
    (h : e ∈ unmountRenamePass um old) :
    ∃ o ∈ old, (objGet um o.uuid = none ∧ e = .unmount o) ∨
      (∃ fs, objGet um o.uuid = some fs ∧ ¬fs.label = o.label ∧
        e = .rename fs o) := by
  unfold unmountRenamePass at h
  rw [List.mem_filterMap] at h
  obtain ⟨o, hmem, hf⟩ := h
  refine ⟨o, hmem, ?_⟩
  unfold unmountRenameStep at hf
  cases hu : objGet um o.uuid with
  | none =>
    rw [hu] at hf
    simp at hf
    exact Or.inl ⟨rfl, hf.symm⟩
  | some fs =>
    rw [hu] at hf
    by_cases hl : fs.label = o.label
    · simp [hl] at hf
    · simp [hl] at hf
      exact Or.inr ⟨fs, rfl, hl, hf.symm⟩

theorem unmountRenamePass_not_isMount {um : ObjMap FileSystem}
    {old : List FileSystem} {e : FileSystemEvent}
    (h : e ∈ unmountRenamePass um old) :
    isMountEvent e = false := by
  obtain ⟨o, -, h | h⟩ := unmountRenamePass_shape h
  · rw [h.2]; rfl
  · obtain ⟨fs, -, -, he⟩ := h
    rw [he]; rfl

end PassLemmas

/-- C1 (amended): a mount event for an entry of the new snapshot is
emitted in a diff cycle exactly when the mountpoint directory of the entry
exists and the current mountpoint-keyed filesystem map has no entry at the
mountpoint of the entry: the mount pass decides novelty by mountpoint, not
by uuid. -/
theorem mount_event_iff_no_mountpoint_entry (p : Platform)
    (d : String → Bool) (fm : ObjMap FileSystem) (ns : List FileSystem)
    (fs : FileSystem) :
    FileSystemEvent.mount fs ∈ diffEvents p d fm ns ↔
      fs ∈ ns ∧ d fs.mountpoint = true ∧ objGet fm fs.mountpoint = none := by
  unfold diffEvents
  rw [List.mem_append]
  constructor
  · rintro (h | h)
    · obtain ⟨g, hg, hmem, hd, hget⟩ := mem_mountPass.mp h
      cases hg
      exact ⟨hmem, hd, hget⟩
    · have := unmountRenamePass_not_isMount h
      simp [isMountEvent] at this
  · rintro ⟨h1, h2, h3⟩
    exact Or.inl (mem_mountPass.mpr ⟨fs, rfl, h1, h2, h3⟩)

/-- A size record shared by the concrete example filesystems. -/
def exSize : FsSize := ⟨0, 0, 0⟩

/-- Concrete entry mounted at /a in the old state. -/
def exOldA : FileSystem :=
  ⟨"/dev/sda1", "Data", "ext4", none, "/a", true, "USB", none, exSize, "u-1"⟩

/-- The same volume, same uuid and label, reported at mountpoint /b in the
new snapshot. -/
def exNewB : FileSystem :=
  ⟨"/dev/sda1", "Data", "ext4", none, "/b", true, "USB", none, exSize, "u-1"⟩

/-- C1 counterexample: an old entry and a new entry carry the same uuid,
only the mountpoint moved (the new directory exists), yet the diff cycle
emits a mount event for the new entry, so mount emission is not decided by
uuid matching against the old state. -/
theorem mount_event_despite_uuid_match :
    FileSystemEvent.mount exNewB ∈
        diffEvents .linux (fun _ => true) [("/a", exOldA)] [exNewB] ∧
      exOldA ∈ objValues [("/a", exOldA)] ∧
      exOldA.uuid = exNewB.uuid := by decide

/-- C6 (amended): in every diff cycle, under every completion order of the
concurrent directory checks (any permutation of the new snapshot), the
mount events form a prefix of the event list (last conjunct: any event at
or before a mount event is a mount event); the subsequence of unmount and
rename events is exactly the second pass taken in the iteration order of
the sorted old state; and the subsequence of mount events is the mount
pass in completion order, a permutation of the snapshot-order mount
candidates that coincides with the snapshot order only when the checks
complete in call order. -/
theorem mounts_before_unmounts_renames (p : Platform) (d : String → Bool)
    (fm : ObjMap FileSystem) (ns sched : List FileSystem)
    (hperm : sched.Perm ns) :
    ((diffEventsWithSchedule p d fm ns sched).filter
      (fun e => isMountEvent e) = mountPass d fm sched) ∧
    ((diffEventsWithSchedule p d fm ns sched).filter
      (fun e => !isMountEvent e) =
      unmountRenamePass (uuidFilesystemMap ns) (stateOf p fm)) ∧
    (mountPass d fm sched).Perm (mountPass d fm ns) ∧
    (∀ i j : Fin (diffEventsWithSchedule p d fm ns sched).length,
      i.val ≤ j.val →
      isMountEvent ((diffEventsWithSchedule p d fm ns sched).get j) = true →
      isMountEvent ((diffEventsWithSchedule p d fm ns sched).get i) =
        true) := by
  have hA : ∀ e ∈ mountPass d fm sched, isMountEvent e = true :=
    fun e he => mountPass_isMount he
  have hB : ∀ e ∈ unmountRenamePass (uuidFilesystemMap ns) (stateOf p fm),
      isMountEvent e = false :=
    fun e he => unmountRenamePass_not_isMount he
  refine ⟨?_, ?_, ?_, ?_⟩
  · unfold diffEventsWithSchedule
    rw [List.filter_append]
    rw [List.filter_eq_self.mpr hA]
    rw [List.filter_eq_nil_iff.mpr (by intro e he; simp [hB e he]),
      List.append_nil]
  · unfold diffEventsWithSchedule
    rw [List.filter_append]
    rw [List.filter_eq_nil_iff.mpr (by intro e he; simp [hA e he]),
      List.nil_append]
    exact List.filter_eq_self.mpr (by intro e he; simp [hB e he])
  · unfold mountPass
    exact hperm.filterMap _
  · intro i j hij hj
    set A := mountPass d fm sched with hAdef
    set B := unmountRenamePass (uuidFilesystemMap ns) (stateOf p fm)
      with hBdef
    have hlen : (diffEventsWithSchedule p d fm ns sched).length =
        A.length + B.length :=
      List.length_append A B
    have hjA : j.val < A.length := by
      by_contra hge
      push_neg at hge
      have hb : j.val - A.length < B.length := by
        have h1 := j.isLt
        omega
      have hgj : (diffEventsWithSchedule p d fm ns sched).get j =
          B.get ⟨j.val - A.length, hb⟩ :=
        get_append_right_eq A B j.val hge j.isLt hb
      rw [hgj] at hj
      have hfalse := hB _ (List.get_mem B _ hb)
      rw [hfalse] at hj
      exact Bool.false_ne_true hj
    have hiA : i.val < A.length := lt_of_le_of_lt hij hjA
    have hgi : (diffEventsWithSchedule p d fm ns sched).get i =
        A.get ⟨i.val, hiA⟩ :=
      get_append_left_eq A B i.val hiA i.isLt
    rw [hgi]
    exact hA _ (List.get_mem A _ hiA)

/-- Concrete unrelated entry mounted at /u in the old state, absent from
the new snapshot. -/
def exOldU : FileSystem :=
  ⟨"/dev/sdu1", "Old", "ext4", none, "/u", true, "USB", none, exSize, "u-9"⟩

/-- Concrete fresh entry at /n in the new snapshot, absent from the old
state. -/
def exNewN : FileSystem :=
  ⟨"/dev/sdn1", "New", "ext4", none, "/n", true, "USB", none, exSize, "u-7"⟩

/-- Concrete second fresh entry at /p in the new snapshot, absent from the
old state, sorting after the /n entry. -/
def exNewP : FileSystem :=
  ⟨"/dev/sdp1", "Newer", "ext4", none, "/p", true, "USB", none, exSize,
    "u-8"⟩

/-- C6 counterexample: the sorted snapshot lists the /n entry before the
/p entry, but when the directory check of the /p entry completes first the
Promise.all of the mount pass pushes its mount event first: the cycle
under that completion order emits the mount events out of snapshot order,
refuting the claim that events within the mount pass always follow the
iteration order of the snapshot. -/
theorem mount_pass_order_depends_on_schedule :
    List.Perm [exNewP, exNewN] [exNewN, exNewP] ∧
    diffEventsWithSchedule .linux (fun _ => true) [] [exNewN, exNewP]
        [exNewP, exNewN] =
      [.mount exNewP, .mount exNewN] ∧
    mountPass (fun _ => true) ([] : ObjMap FileSystem) [exNewN, exNewP] =
      [.mount exNewN, .mount exNewP] ∧
    diffEventsWithSchedule .linux (fun _ => true) [] [exNewN, exNewP]
        [exNewP, exNewN] ≠
      mountPass (fun _ => true) ([] : ObjMap FileSystem)
        [exNewN, exNewP] := by decide

/-- C6 witness: a cycle with two genuine mounts whose directory checks
complete in reverse snapshot order and one unrelated unmount: both mount
events still precede the unmount event, the second pass follows the old
state, and the emitted mount events are a permutation of the
snapshot-order candidates. -/
theorem mounts_before_unmounts_renames_witness :
    ((diffEventsWithSchedule .linux (fun _ => true) [("/u", exOldU)]
        [exNewN, exNewP] [exNewP, exNewN]).filter
      (fun e => !isMountEvent e) =
      unmountRenamePass (uuidFilesystemMap [exNewN, exNewP])
        (stateOf .linux [("/u", exOldU)])) ∧
    (mountPass (fun _ => true) [("/u", exOldU)] [exNewP, exNewN]).Perm
      (mountPass (fun _ => true) [("/u", exOldU)] [exNewN, exNewP]) ∧
    isMountEvent ((diffEventsWithSchedule .linux (fun _ => true)
      [("/u", exOldU)] [exNewN, exNewP] [exNewP, exNewN]).get
        ⟨0, by decide⟩) = true := by
  have h := mounts_before_unmounts_renames .linux (fun _ => true)
    [("/u", exOldU)] [exNewN, exNewP] [exNewP, exNewN] (by decide)
  exact ⟨h.2.1, h.2.2.1, h.2.2.2 ⟨0, by decide⟩ ⟨0, by decide⟩
    (Nat.le_refl 0) (by decide)⟩

theorem count_filterMap_of_inj {α β : Type} [DecidableEq α] [DecidableEq β]
    (f : α → Option β) (a : α) (e : β) (hf : f a = some e)
    (hinj : ∀ x, f x = some e → x = a) (l : List α) :
    (l.filterMap f).count e = l.count a := by
  induction l with
  | nil => rfl
  | cons x xs ih =>
    rw [List.filterMap_cons]
    cases hx : f x with
    | none =>
      have hxa : (x == a) = false := by
        rw [beq_eq_false_iff_ne]
        intro h
        rw [h, hf] at hx
        exact Option.noConfusion hx
      rw [List.count_cons, hxa]
      simpa using ih
    | some b =>
      rw [List.count_cons, List.count_cons]
      by_cases hbe : b = e
      · subst hbe
        have hxa : x = a := hinj x hx
        subst hxa
        simp [ih]
      · have hxa : (x == a) = false := by
          rw [beq_eq_false_iff_ne]
          intro h
          rw [h, hf] at hx
          exact hbe (Option.some.inj hx).symm
        have hbb : (b == e) = false := by
          rw [beq_eq_false_iff_ne]
          exact hbe
        rw [hxa, hbb]
        simpa using ih

/-- C7 (amended): for an old-state entry whose uuid resolves in the
uuid-keyed new snapshot, a diff cycle emits exactly one rename event
pairing the resolved new entry with the old one when the labels differ;
when the labels are equal it emits no unmount and no rename event for that
old entry, though the mount pass may still emit a mount event for the new
record when its mountpoint moved to an existing directory. -/
theorem rename_emitted_exactly_once (p : Platform) (d : String → Bool)
    (fm : ObjMap FileSystem) (ns : List FileSystem) (o n : FileSystem)
    (hold : (stateOf p fm).count o = 1)
    (hn : objGet (uuidFilesystemMap ns) o.uuid = some n) :
    (¬n.label = o.label →
      (diffEvents p d fm ns).count (.rename n o) = 1) ∧
    (n.label = o.label → ∀ e ∈ diffEvents p d fm ns,
      e ≠ .unmount o ∧ ∀ n2, e ≠ .rename n2 o) := by
  constructor
  · intro hlabel
    unfold diffEvents
    rw [List.count_append]
    have h0 : (mountPass d fm ns).count (.rename n o) = 0 := by
      refine List.count_eq_zero.mpr (fun hmem => ?_)
      have := mountPass_isMount hmem
      simp [isMountEvent] at this
    have hfo : unmountRenameStep (uuidFilesystemMap ns) o =
        some (FileSystemEvent.rename n o) := by
      unfold unmountRenameStep
      rw [hn]
      simp [hlabel]
    have hinjo : ∀ x, unmountRenameStep (uuidFilesystemMap ns) x =
        some (FileSystemEvent.rename n o) → x = o := by
      intro x hx
      unfold unmountRenameStep at hx
      cases hu : objGet (uuidFilesystemMap ns) x.uuid with
      | none =>
        rw [hu] at hx
        simp at hx
      | some fs =>
        rw [hu] at hx
        by_cases hl : fs.label = x.label
        · simp [hl] at hx
        · simp [hl] at hx
          exact hx.2
    have h1 : (unmountRenamePass (uuidFilesystemMap ns)
        (stateOf p fm)).count (.rename n o) = 1 := by
      unfold unmountRenamePass
      exact (count_filterMap_of_inj (unmountRenameStep (uuidFilesystemMap ns))
        o (FileSystemEvent.rename n o) hfo hinjo (stateOf p fm)).trans hold
    rw [h0, h1]
  · intro hlabel e he
    unfold diffEvents at he
    rw [List.mem_append] at he
    cases he with
    | inl h =>
      obtain ⟨fs, rfl, -, -, -⟩ := mem_mountPass.mp h
      exact ⟨fun hEq => FileSystemEvent.noConfusion hEq,
        fun n2 hEq => FileSystemEvent.noConfusion hEq⟩
    | inr h =>
      obtain ⟨o2, hmem, hcase⟩ := unmountRenamePass_shape h
      cases hcase with
      | inl hc =>
        have ho2 : o2 ≠ o := by
          intro hEq
          rw [hEq, hn] at hc
          exact Option.noConfusion hc.1
        rw [hc.2]
        refine ⟨fun hEq => ?_, fun n2 hEq => FileSystemEvent.noConfusion hEq⟩
        injection hEq with h2
        exact ho2 h2
      | inr hc =>
        obtain ⟨fs, hget, hfl, he2⟩ := hc
        have ho2 : o2 ≠ o := by
          intro hEq
          rw [hEq, hn] at hget
          have hfsn : fs = n := (Option.some.inj hget).symm
          rw [hfsn, hlabel] at hfl
          rw [hEq] at hfl
          exact hfl rfl
        rw [he2]
        refine ⟨fun hEq => FileSystemEvent.noConfusion hEq, fun n2 hEq => ?_⟩
        injection hEq with h2 h3
        exact ho2 h3

/-- The volume of exOldA renamed in place: same device, mountpoint and
uuid, a different label. -/
def exRenamedA : FileSystem :=
  ⟨"/dev/sda1", "Fresh", "ext4", none, "/a", true, "USB", none, exSize, "u-1"⟩

/-- C7 witness: the rename scenario evaluated at a concrete cycle where
only the label changed: exactly one rename event pairing the new record
with the old one. -/
theorem rename_emitted_exactly_once_witness :
    (diffEvents .linux (fun _ => true) [("/a", exOldA)]
      [exRenamedA]).count (.rename exRenamedA exOldA) = 1 :=
  (rename_emitted_exactly_once .linux (fun _ => true) [("/a", exOldA)]
    [exRenamedA] exOldA exRenamedA (by decide) (by decide)).1 (by decide)

/-- C7 counterexample: old and new entry share uuid and label and differ
only in the mountpoint, whose directory exists; the cycle still emits an
event (the mount pass fires on the moved mountpoint), so the claim that
nothing at all is emitted when only a non-label field differs is false. -/
theorem label_equal_still_emits :
    exNewB.uuid = exOldA.uuid ∧ exNewB.label = exOldA.label ∧
    diffEvents .linux (fun _ => true) [("/a", exOldA)] [exNewB] ≠ [] := by
  decide

/-- C2 (amended): the uuid of a constructed snapshot entry is the device
uuid lower-cased whenever the device identifier resolves in the device
map, whether or not that uuid is empty, and is the name-based fallback
applied to the device identifier exactly when the device map has no entry
for it. -/
theorem snapshot_uuid_rule (v5 : String → String) (dm : ObjMap BlockDevice)
    (raw : RawFs) :
    (∀ dev, objGet dm raw.fs = some dev →
      (mkFileSystem v5 dm raw).uuid = jsToLowerCase dev.uuid) ∧
    (objGet dm raw.fs = none → (mkFileSystem v5 dm raw).uuid = v5 raw.fs) := by
  constructor
  · intro dev h
    simp [mkFileSystem, h]
  · intro h
    simp [mkFileSystem, h]

/-- Concrete block device with a reported upper-case uuid. -/
def exDev : BlockDevice := ⟨"/dev/sdd1", "Media", "USB", "SER1", "ABCD-12EF"⟩

/-- Concrete raw entry whose device identifier resolves in the device map. -/
def exRawD : RawFs := ⟨"/dev/sdd1", "/d", "ext4", 1, 2, 1⟩

/-- Concrete raw entry of a network share, absent from the device map. -/
def exRawE : RawFs := ⟨"//server/share", "/mnt/share", "smbfs", 1, 2, 1⟩

/-- A representative of the deterministic version-5 name-based derivation
under the fixed namespace constant.  Only two aspects of the real function
matter to the claims: it is a fixed deterministic function of the name,
and a genuine version-5 UUID string is never empty, which this
representative preserves. -/
def exV5 : String → String := fun name => String.append "v5-" name

/-- C2 witness: a resolved device yields its uuid lower-cased and an
unresolved device identifier yields the fallback value, evaluated on
concrete snapshot rows. -/
theorem snapshot_uuid_rule_witness :
    (mkFileSystem exV5 (deviceMapOf [exDev]) exRawD).uuid = "abcd-12ef" ∧
    (mkFileSystem exV5 (deviceMapOf [exDev]) exRawE).uuid =
      exV5 "//server/share" := by
  constructor
  · have h := (snapshot_uuid_rule exV5 (deviceMapOf [exDev]) exRawD).1
      exDev (by decide)
    rw [h]
    decide
  · have h := (snapshot_uuid_rule exV5 (deviceMapOf [exDev]) exRawE).2
      (by decide)
    rw [h]
    rfl

/-- Concrete block device reported with an empty native uuid (and empty
serial), as the open question of the design notes contemplates. -/
def exEmptyUuidDev : BlockDevice := ⟨"/dev/sdc1", "Backup", "USB", "", ""⟩

/-- Concrete raw entry joined to the empty-uuid device. -/
def exRawC : RawFs := ⟨"/dev/sdc1", "/c", "ext4", 10, 100, 90⟩

/-- C2 counterexample: the device is present in the device map but its
native uuid is empty; the constructed uuid is then the empty string and
not the version-5 fallback value, so the claimed non-emptiness test does
not exist in this code path: presence in the device map alone selects the
native uuid. -/
theorem empty_device_uuid_not_v5 :
    (objGet (deviceMapOf [exEmptyUuidDev]) exRawC.fs).isSome = true ∧
    (mkFileSystem exV5 (deviceMapOf [exEmptyUuidDev]) exRawC).uuid = "" ∧
    exV5 exRawC.fs ≠ "" ∧
    (mkFileSystem exV5 (deviceMapOf [exEmptyUuidDev]) exRawC).uuid ≠
      exV5 exRawC.fs := by decide

/-- A stopped instance that still holds two entries from before its stop. -/
def exStopped : MountieState := ⟨false, [("/a", exOldA), ("/n", exNewN)], 0⟩

/-- C3: evaluation at the failing input.  Consuming the stream of a
stopped instance replays the current state as mount events in state order
and then appends the live events, but the instance is returned unchanged
with the running flag still false: the iterator body never calls start,
while the specification (and the usage of the shipped example program)
requires first consumption to start a stopped monitor. -/
theorem asyncIterator_does_not_start :
    (asyncIterator .linux exStopped [.unmount exOldA]).2 =
        [.mount exOldA, .mount exNewN, .unmount exOldA] ∧
      exStopped.running = false ∧
      (asyncIterator .linux exStopped [.unmount exOldA]).1 = exStopped := by
  decide

/-- C5: evaluation at the failing input.  At an elapsed cycle time of 3000
milliseconds the computed duration of Mountie.ts line 130 is 7000, yet the
call on line 131 passes the bare interval constant, 10000, to sleep: the
computed value is dead and the actual inter-cycle delay is always the full
interval. -/
theorem sleep_ignores_computed_duration :
    sleepDuration 3000 = 7000 ∧ monitorSleepArg 3000 = 10000 ∧
    monitorSleepArg 3000 ≠ sleepDuration 3000 := by decide

/-- Whether a notification satisfies the firing test of the watch callback
installed at its level. -/
def notifyMatches (nt : WatchNotification) : Bool :=
  decide (nt.2.1 = "rename" ∧ nt.2.2 = nt.1.filename)

theorem foldl_watchCallback (trace : List WatchNotification)
    (st : SharedSignal) :
    trace.foldl (fun s nt => watchCallback nt.1 nt.2.1 nt.2.2 s) st =
      if st.resolved then st
      else if trace.any notifyMatches then ⟨true, st.callbackFires + 1⟩
      else st := by
  induction trace generalizing st with
  | nil =>
    cases hres : st.resolved <;> simp [hres]
  | cons nt rest ih =>
    rw [List.foldl_cons, ih]
    cases hres : st.resolved with
    | true =>
      have hstep : watchCallback nt.1 nt.2.1 nt.2.2 st = st := by
        unfold watchCallback resolveShared
        rw [hres]
        split <;> simp
      rw [hstep, hres]
      simp
    | false =>
      cases hm : notifyMatches nt with
      | true =>
        have hstep : watchCallback nt.1 nt.2.1 nt.2.2 st =
            ⟨true, st.callbackFires + 1⟩ := by
          unfold watchCallback resolveShared
          unfold notifyMatches at hm
          rw [of_decide_eq_true hm |> if_pos, hres]
          simp
        rw [hstep]
        simp [hres, List.any_cons, hm]
      | false =>
        have hstep : watchCallback nt.1 nt.2.1 nt.2.2 st = st := by
          unfold watchCallback
          unfold notifyMatches at hm
          rw [if_neg (of_decide_eq_false hm)]
        have hany : (nt :: rest).any notifyMatches = rest.any notifyMatches := by
          rw [List.any_cons, hm, Bool.false_or]
        rw [hstep, hres, hany]

/-- C4: however many levels of the ancestor chain of a watched path report
a rename of their own watched child name, and in whatever order the
runtime delivers those notifications, the completion callback registered
on the shared promise runs exactly once, because the shared promise
resolves at most once and the callback is its single then-continuation. -/
theorem deletion_watcher_single_fire (dirname basename : String → String)
    (fuel : Nat) (path : String) (trace : List WatchNotification)
    (_hlevels : ∀ nt ∈ trace, nt.1 ∈ ancestorLevels dirname basename fuel path)
    (hsome : ∃ nt ∈ trace, nt.2.1 = "rename" ∧ nt.2.2 = nt.1.filename) :
    (runWatcherTrace trace).callbackFires = 1 := by
  unfold runWatcherTrace
  rw [foldl_watchCallback]
  have hany : trace.any notifyMatches = true := by
    rw [List.any_eq_true]
    obtain ⟨nt, hmem, h1, h2⟩ := hsome
    exact ⟨nt, hmem, decide_eq_true ⟨h1, h2⟩⟩
  simp [hany]

/-- A concrete dirname oracle for the chain rooted at the watched path. -/
def exDirname : String → String :=
  fun s => if s = "/a/b" then "/a" else "/"

/-- A concrete basename oracle for the chain rooted at the watched path. -/
def exBasename : String → String :=
  fun s => if s = "/a/b" then "b" else if s = "/a" then "a" else "/"

/-- Two rename notifications, one per level of the concrete two-level
chain of the watched path, delivered in quick succession. -/
def exTrace : List WatchNotification :=
  [(⟨"/", "a"⟩, "rename", "a"), (⟨"/a", "b"⟩, "rename", "b")]

/-- C4 witness: both levels of the ancestor chain of the watched path fire
a matching rename, and the callback still runs exactly once. -/
theorem deletion_watcher_single_fire_witness :
    (runWatcherTrace exTrace).callbackFires = 1 :=
  deletion_watcher_single_fire exDirname exBasename 5 "/a/b" exTrace
    (by decide) (by decide)

theorem filesystemStep_none_eq (path : String) (x : FileSystem) :
    filesystemStep path none x =
      if isCandidate path x then some x else none := by
  unfold filesystemStep isCandidate
  cases hm : x.mounted <;> cases hs : jsStartsWith path x.mountpoint <;>
    simp [hm, hs]

theorem filesystemStep_some_eq (path : String) (r x : FileSystem) :
    filesystemStep path (some r) x =
      if isCandidate path x &&
          decide (jsLength r.mountpoint < jsLength x.mountpoint)
      then some x else some r := by
  unfold filesystemStep isCandidate
  cases hm : x.mounted <;> cases hs : jsStartsWith path x.mountpoint <;>
    cases hl : decide (jsLength r.mountpoint < jsLength x.mountpoint) <;>
      simp [hm, hs, hl]

theorem filesystemStep_none_iff (path : String) (R : Option FileSystem)
    (x : FileSystem) :
    filesystemStep path R x = none ↔
      R = none ∧ isCandidate path x = false := by
  cases R with
  | none =>
    rw [filesystemStep_none_eq]
    cases hc : isCandidate path x <;> simp [hc]
  | some r =>
    rw [filesystemStep_some_eq]
    constructor
    · intro h
      split at h <;> exact Option.noConfusion h
    · rintro ⟨h, -⟩
      exact Option.noConfusion h

theorem filesystemStep_some_src (path : String) (R : Option FileSystem)
    (x fs : FileSystem) (h : filesystemStep path R x = some fs) :
    (fs = x ∧ isCandidate path x = true) ∨ R = some fs := by
  cases R with
  | none =>
    rw [filesystemStep_none_eq] at h
    by_cases hc : isCandidate path x = true
    · rw [if_pos hc] at h
      exact Or.inl ⟨(Option.some.inj h).symm, hc⟩
    · rw [if_neg hc] at h
      exact Option.noConfusion h
  | some r =>
    rw [filesystemStep_some_eq] at h
    by_cases hc : (isCandidate path x &&
        decide (jsLength r.mountpoint < jsLength x.mountpoint)) = true
    · rw [if_pos hc] at h
      rw [Bool.and_eq_true] at hc
      exact Or.inl ⟨(Option.some.inj h).symm, hc.1⟩
    · rw [if_neg hc] at h
      exact Or.inr h

theorem filesystemStep_acc_le (path : String) (R : Option FileSystem)
    (x r fs : FileSystem) (hR : R = some r)
    (h : filesystemStep path R x = some fs) :
    jsLength r.mountpoint ≤ jsLength fs.mountpoint := by
  subst hR
  rw [filesystemStep_some_eq] at h
  by_cases hc : (isCandidate path x &&
      decide (jsLength r.mountpoint < jsLength x.mountpoint)) = true
  · rw [if_pos hc] at h
    rw [Bool.and_eq_true] at hc
    have hlt := of_decide_eq_true hc.2
    rw [← Option.some.inj h]
    exact Nat.le_of_lt hlt
  · rw [if_neg hc] at h
    rw [Option.some.inj h]

theorem filesystemStep_cand_le (path : String) (R : Option FileSystem)
    (x fs : FileSystem) (hcand : isCandidate path x = true)
    (h : filesystemStep path R x = some fs) :
    jsLength x.mountpoint ≤ jsLength fs.mountpoint := by
  cases R with
  | none =>
    rw [filesystemStep_none_eq, if_pos hcand] at h
    rw [← Option.some.inj h]
  | some r =>
    rw [filesystemStep_some_eq] at h
    by_cases hc : (isCandidate path x &&
        decide (jsLength r.mountpoint < jsLength x.mountpoint)) = true
    · rw [if_pos hc] at h
      rw [← Option.some.inj h]
    · rw [if_neg hc] at h
      have hd : decide (jsLength r.mountpoint < jsLength x.mountpoint) =
          false := by
        cases hd2 : decide (jsLength r.mountpoint < jsLength x.mountpoint) with
        | false => rfl
        | true =>
          refine absurd ?_ hc
          rw [Bool.and_eq_true]
          exact ⟨hcand, hd2⟩
      have hnlt := of_decide_eq_false hd
      rw [← Option.some.inj h]
      exact Nat.le_of_not_lt hnlt

theorem filesystem_foldl_spec (path : String) (l : List FileSystem) :
    ∀ R : Option FileSystem,
    (l.foldl (filesystemStep path) R = none ↔
      R = none ∧ ∀ fs ∈ l, isCandidate path fs = false) ∧
    (∀ fs, l.foldl (filesystemStep path) R = some fs →
      ((fs ∈ l ∧ isCandidate path fs = true) ∨ R = some fs) ∧
      (∀ g ∈ l, isCandidate path g = true →
        jsLength g.mountpoint ≤ jsLength fs.mountpoint) ∧
      (∀ r, R = some r →
        jsLength r.mountpoint ≤ jsLength fs.mountpoint)) := by
  induction l with
  | nil =>
    intro R
    refine ⟨by simp, ?_⟩
    intro fs h
    simp only [List.foldl_nil] at h
    refine ⟨Or.inr h, by simp, ?_⟩
    intro r hr
    rw [hr] at h
    rw [Option.some.inj h]
  | cons x xs ih =>
    intro R
    have hx := ih (filesystemStep path R x)
    rw [List.foldl_cons]
    constructor
    · rw [hx.1, filesystemStep_none_iff]
      constructor
      · rintro ⟨⟨h1, h2⟩, h3⟩
        refine ⟨h1, ?_⟩
        intro fs hfs
        rcases List.mem_cons.mp hfs with h | h
        · rw [h]
          exact h2
        · exact h3 fs h
      · rintro ⟨h1, h2⟩
        exact ⟨⟨h1, h2 x (List.mem_cons_self x xs)⟩,
          fun fs hfs => h2 fs (List.mem_cons_of_mem x hfs)⟩
    · intro fs h
      obtain ⟨hsrc, hbound, haccle⟩ := hx.2 fs h
      refine ⟨?_, ?_, ?_⟩
      · rcases hsrc with ⟨hmem, hcand⟩ | hacc
        · exact Or.inl ⟨List.mem_cons_of_mem x hmem, hcand⟩
        · rcases filesystemStep_some_src path R x fs hacc with ⟨hfx, hc⟩ | hRs
          · refine Or.inl ⟨?_, ?_⟩
            · rw [hfx]
              exact List.mem_cons_self x xs
            · rw [hfx]
              exact hc
          · exact Or.inr hRs
      · intro g hg hcg
        rcases List.mem_cons.mp hg with hgx | hgxs
        · subst hgx
          cases hstep : filesystemStep path R g with
          | none =>
            rw [filesystemStep_none_iff] at hstep
            rw [hstep.2] at hcg
            exact Bool.noConfusion hcg
          | some r1 =>
            exact Nat.le_trans
              (filesystemStep_cand_le path R g r1 hcg hstep)
              (haccle r1 hstep)
        · exact hbound g hgxs hcg
      · intro r hR
        cases hstep : filesystemStep path R x with
        | none =>
          rw [filesystemStep_none_iff] at hstep
          rw [hstep.1] at hR
          exact Option.noConfusion hR
        | some r1 =>
          exact Nat.le_trans
            (filesystemStep_acc_le path R x r r1 hR hstep)
            (haccle r1 hstep)

theorem isCandidate_false_iff (path : String) (fs : FileSystem) :
    isCandidate path fs = false ↔
      (fs.mounted = true → jsStartsWith path fs.mountpoint = false) := by
  unfold isCandidate
  cases hm : fs.mounted <;> cases hs : jsStartsWith path fs.mountpoint <;>
    simp [hm, hs]

theorem isCandidate_true_iff (path : String) (fs : FileSystem) :
    isCandidate path fs = true ↔
      (fs.mounted = true ∧ jsStartsWith path fs.mountpoint = true) := by
  unfold isCandidate
  cases hm : fs.mounted <;> cases hs : jsStartsWith path fs.mountpoint <;>
    simp [hm, hs]

/-- C8: the filesystem lookup returns none exactly when no mounted entry
of the state has a mountpoint that is a prefix of the queried path; any
returned entry is a mounted entry of the state whose mountpoint is a
prefix of the path of maximal length among all such entries; and an entry
whose mountpoint is strictly the longest such prefix is the one returned,
so with entries mounted at two nested prefixes the deeper one wins. -/
theorem filesystem_longest_match (st : List FileSystem) (path : String) :
    (filesystem st path = none ↔
      ∀ fs ∈ st, fs.mounted = true →
        jsStartsWith path fs.mountpoint = false) ∧
    (∀ fs, filesystem st path = some fs →
      fs ∈ st ∧ fs.mounted = true ∧
      jsStartsWith path fs.mountpoint = true ∧
      ∀ g ∈ st, g.mounted = true → jsStartsWith path g.mountpoint = true →
        jsLength g.mountpoint ≤ jsLength fs.mountpoint) ∧
    (∀ fs ∈ st, fs.mounted = true → jsStartsWith path fs.mountpoint = true →
      (∀ g ∈ st, ¬g = fs → g.mounted = true →
        jsStartsWith path g.mountpoint = true →
        jsLength g.mountpoint < jsLength fs.mountpoint) →
      filesystem st path = some fs) := by
  have hspec := filesystem_foldl_spec path st none
  refine ⟨?_, ?_, ?_⟩
  · unfold filesystem
    rw [hspec.1]
    constructor
    · rintro ⟨-, h⟩ fs hfs hm
      have := (isCandidate_false_iff path fs).mp (h fs hfs) hm
      exact this
    · intro h
      refine ⟨rfl, fun fs hfs => ?_⟩
      exact (isCandidate_false_iff path fs).mpr (h fs hfs)
  · intro fs h
    obtain ⟨hsrc, hbound, -⟩ := hspec.2 fs h
    rcases hsrc with ⟨hmem, hcand⟩ | hacc
    · obtain ⟨hm, hs⟩ := (isCandidate_true_iff path fs).mp hcand
      refine ⟨hmem, hm, hs, ?_⟩
      intro g hg hgm hgs
      exact hbound g hg ((isCandidate_true_iff path g).mpr ⟨hgm, hgs⟩)
    · exact Option.noConfusion hacc
  · intro fs hmem hm hs hstrict
    have hcand : isCandidate path fs = true :=
      (isCandidate_true_iff path fs).mpr ⟨hm, hs⟩
    cases hval : filesystem st path with
    | none =>
      unfold filesystem at hval
      rw [hspec.1] at hval
      have := hval.2 fs hmem
      rw [hcand] at this
      exact Bool.noConfusion this
    | some r =>
      obtain ⟨hsrc, hbound, -⟩ := hspec.2 r hval
      rcases hsrc with ⟨hrmem, hrcand⟩ | hacc
      · by_cases hrf : r = fs
        · rw [hrf]
        · obtain ⟨hrm, hrs⟩ := (isCandidate_true_iff path r).mp hrcand
          have hlt := hstrict r hrmem hrf hrm hrs
          have hge := hbound fs hmem hcand
          exact absurd hge (Nat.not_le_of_lt hlt)
      · exact Option.noConfusion hacc

/-- Concrete entry mounted at the shallow prefix. -/
def exFsA8 : FileSystem :=
  ⟨"/dev/sde1", "Outer", "ext4", none, "/a", true, "USB", none, exSize, "u-a"⟩

/-- Concrete entry mounted at the deeper nested prefix. -/
def exFsAB8 : FileSystem :=
  ⟨"/dev/sde2", "Inner", "ext4", none, "/a/b", true, "USB", none, exSize,
    "u-ab"⟩

/-- C8 witness: with entries mounted at the two nested prefixes of the
queried path, the lookup returns the deeper entry. -/
theorem filesystem_longest_match_witness :
    filesystem [exFsA8, exFsAB8] "/a/b/c" = some exFsAB8 :=
  (filesystem_longest_match [exFsA8, exFsAB8] "/a/b/c").2.2 exFsAB8
    (by decide) (by decide) (by decide) (by decide)

/-- C9: nextRefresh fails with the not-running error exactly when the
monitor is stopped; the call leaves the running flag and the filesystem
map unchanged; while running it registers one pending one-shot refresh
listener, and the next refresh emission resolves all pending listeners,
the fresh one included. -/
theorem nextRefresh_spec (m : MountieState) :
    ((nextRefresh m).1 = Except.error "Mountie is not running" ↔
      m.running = false) ∧
    (nextRefresh m).2.running = m.running ∧
    (nextRefresh m).2.filesystemMap = m.filesystemMap ∧
    (m.running = true →
      (nextRefresh m).2.refreshOnce = m.refreshOnce + 1 ∧
      (emitRefresh (nextRefresh m).2).2 = m.refreshOnce + 1) := by
  unfold nextRefresh emitRefresh
  cases hr : m.running <;> simp [hr]

/-- A running instance with one entry and no pending refresh listener. -/
def exRunning : MountieState := ⟨true, [("/a", exOldA)], 0⟩

/-- C9 witness: on a concrete running instance the call succeeds, leaves
the running flag and map unchanged, and its pending listener resolves at
the next refresh emission; on the concretely stopped instance the call
returns the not-running error. -/
theorem nextRefresh_spec_witness :
    (emitRefresh (nextRefresh exRunning).2).2 = 1 ∧
    (nextRefresh exStopped).1 = Except.error "Mountie is not running" := by
  constructor
  · exact ((nextRefresh_spec exRunning).2.2.2 rfl).2
  · exact ((nextRefresh_spec exStopped).1).mpr rfl

/-- The registry holds a watcher key for every mountpoint key of the
filesystem map. -/
def RegistryCovers (s : Sys) : Prop :=
  ∀ k v, objGet s.filesystemMap k = some v → k ∈ s.deletionWatchers

/-- Every entry of the filesystem map is stored under its own mountpoint. -/
def MapCoherent (s : Sys) : Prop :=
  ∀ k v, objGet s.filesystemMap k = some v → v.mountpoint = k

theorem mem_regAdd (l : List String) (k k2 : String) :
    k2 ∈ regAdd l k ↔ k2 ∈ l ∨ k2 = k := by
  unfold regAdd
  by_cases h : k ∈ l
  · rw [if_pos h]
    constructor
    · exact Or.inl
    · rintro (h2 | h2)
      · exact h2
      · rw [h2]
        exact h
  · rw [if_neg h]
    simp [List.mem_append]

theorem mem_regDel (l : List String) (k k2 : String) :
    k2 ∈ regDel l k ↔ k2 ∈ l ∧ k2 ≠ k := by
  unfold regDel
  rw [List.mem_filter]
  simp

theorem onMount_covers (fs : FileSystem) (s : Sys)
    (h : RegistryCovers s) : RegistryCovers (onMount fs s) := by
  intro k v hget
  have hget2 : objGet (objSet s.filesystemMap fs.mountpoint fs) k =
      some v := hget
  rw [objGet_objSet] at hget2
  show k ∈ regAdd s.deletionWatchers fs.mountpoint
  rw [mem_regAdd]
  by_cases hk : fs.mountpoint = k
  · exact Or.inr hk.symm
  · rw [if_neg hk] at hget2
    exact Or.inl (h k v hget2)

theorem onMount_coherent (fs : FileSystem) (s : Sys)
    (h : MapCoherent s) : MapCoherent (onMount fs s) := by
  intro k v hget
  have hget2 : objGet (objSet s.filesystemMap fs.mountpoint fs) k =
      some v := hget
  rw [objGet_objSet] at hget2
  by_cases hk : fs.mountpoint = k
  · rw [if_pos hk] at hget2
    rw [← Option.some.inj hget2]
    exact hk
  · rw [if_neg hk] at hget2
    exact h k v hget2

theorem onUnmount_covers_coherent (fs : FileSystem) (s s2 : Sys)
    (hu : onUnmount fs s = some s2) (hcov : RegistryCovers s)
    (hcoh : MapCoherent s) : RegistryCovers s2 ∧ MapCoherent s2 := by
  unfold onUnmount at hu
  by_cases hin : fs.mountpoint ∈ s.deletionWatchers
  · rw [if_pos hin] at hu
    have hs2 := Option.some.inj hu
    subst hs2
    constructor
    · intro k v hget
      have hget2 : objGet (objDelete s.filesystemMap fs.mountpoint) k =
          some v := hget
      rw [objGet_objDelete] at hget2
      by_cases hk : fs.mountpoint = k
      · rw [if_pos hk] at hget2
        exact Option.noConfusion hget2
      · rw [if_neg hk] at hget2
        show k ∈ regDel s.deletionWatchers fs.mountpoint
        rw [mem_regDel]
        exact ⟨hcov k v hget2, fun h2 => hk h2.symm⟩
    · intro k v hget
      have hget2 : objGet (objDelete s.filesystemMap fs.mountpoint) k =
          some v := hget
      rw [objGet_objDelete] at hget2
      by_cases hk : fs.mountpoint = k
      · rw [if_pos hk] at hget2
        exact Option.noConfusion hget2
      · rw [if_neg hk] at hget2
        exact hcoh k v hget2
  · rw [if_neg hin] at hu
    exact Option.noConfusion hu

theorem onRename_covers_coherent (fs oldFs : FileSystem) (s s2 : Sys)
    (hr : onRename fs oldFs s = some s2) (hcov : RegistryCovers s)
    (hcoh : MapCoherent s) : RegistryCovers s2 ∧ MapCoherent s2 := by
  unfold onRename at hr
  cases hmid : (if oldFs.mounted then onUnmount oldFs s else some s) with
  | none =>
    rw [hmid] at hr
    exact Option.noConfusion hr
  | some s1 =>
    rw [hmid] at hr
    have h1 : RegistryCovers s1 ∧ MapCoherent s1 := by
      by_cases hm : oldFs.mounted = true
      · rw [if_pos hm] at hmid
        exact onUnmount_covers_coherent oldFs s s1 hmid hcov hcoh
      · rw [if_neg hm] at hmid
        rw [← Option.some.inj hmid]
        exact ⟨hcov, hcoh⟩
    have hs2 := Option.some.inj hr
    subst hs2
    by_cases hm2 : fs.mounted = true
    · rw [if_pos hm2]
      exact ⟨onMount_covers fs s1 h1.1, onMount_coherent fs s1 h1.2⟩
    · rw [if_neg hm2]
      exact h1

theorem step_preserves_covers_coherent (s s2 : Sys) (hstep : Step s s2)
    (h : RegistryCovers s ∧ MapCoherent s) :
    RegistryCovers s2 ∧ MapCoherent s2 := by
  cases hstep with
  | start hrun =>
    constructor <;> intro k v hget <;> exact Option.noConfusion hget
  | stop hrun =>
    exact ⟨h.1, h.2⟩
  | mount fs hrun =>
    exact ⟨onMount_covers fs s h.1, onMount_coherent fs s h.2⟩
  | unmount _ fs hrun hget hu =>
    exact onUnmount_covers_coherent fs s s2 hu h.1 h.2
  | rename _ fs oldFs hrun hget hr2 =>
    exact onRename_covers_coherent fs oldFs s s2 hr2 h.1 h.2
  | watcherFire _ path fs hrun hmem hget hu =>
    exact onUnmount_covers_coherent fs s s2 hu h.1 h.2

theorem reachable_covers_coherent (s : Sys) (h : Reachable s) :
    RegistryCovers s ∧ MapCoherent s := by
  induction h with
  | init =>
    constructor <;> intro k v hget <;> exact Option.noConfusion hget
  | step hr hstep ih =>
    exact step_preserves_covers_coherent _ _ hstep ih

/-- C10 (amended): in every reachable state the mountpoint keys of the
instance filesystem map form a subset of the registry key set; equality of
the two key sets can fail after a restart, because start clears the map
but not the module-level registry.  Consequently every unmount event whose
record is stored in the map, at whatever key, finds a registered watcher
at its mountpoint, so the unguarded registry read and stop call of the
unmount handler never throw. -/
theorem registry_covers_map (s : Sys) (h : Reachable s) :
    (∀ k v, objGet s.filesystemMap k = some v → k ∈ s.deletionWatchers) ∧
    (∀ path fs, objGet s.filesystemMap path = some fs →
      (onUnmount fs s).isSome = true) := by
  obtain ⟨hcov, hcoh⟩ := reachable_covers_coherent s h
  refine ⟨hcov, ?_⟩
  intro path fs hget
  have hmp : fs.mountpoint = path := hcoh path fs hget
  have hmem : fs.mountpoint ∈ s.deletionWatchers := by
    rw [hmp]
    exact hcov path fs hget
  unfold onUnmount
  rw [if_pos hmem]
  rfl

/-- The initial process state: stopped monitor, empty map, empty registry. -/
def initSys : Sys := ⟨false, [], []⟩

/-- The state after the step sequence start, mount at /a, stop, start,
mount at /b; every transition is an observable step of the system. -/
def exSysRestart : Sys :=
  onMount exNewB (startSys (stopSys (onMount exOldA (startSys initSys))))

/-- C10 counterexample: the state reached by start, mount /a, stop, start,
mount /b, whose last transition is a mount handler step, still registers
the watcher key /a from the first run although the restarted map holds no
entry at /a: the key sets of map and registry differ, refuting the claimed
equality. -/
theorem registry_keys_differ_after_restart :
    Reachable exSysRestart ∧
    "/a" ∈ exSysRestart.deletionWatchers ∧
    objGet exSysRestart.filesystemMap "/a" = none := by
  refine ⟨?_, by decide, by decide⟩
  exact Reachable.step
    (Reachable.step
      (Reachable.step
        (Reachable.step
          (Reachable.step Reachable.init (Step.start initSys rfl))
          (Step.mount (startSys initSys) exOldA rfl))
        (Step.stop (onMount exOldA (startSys initSys)) rfl))
      (Step.start (stopSys (onMount exOldA (startSys initSys))) rfl))
    (Step.mount (startSys (stopSys (onMount exOldA (startSys initSys))))
      exNewB rfl)

/-- C10 witness: the invariant applied at the concrete reachable state
after one start and one mount: the mapped key /a is registered and the
unmount handler on its record succeeds. -/
theorem registry_covers_map_witness :
    "/a" ∈ (onMount exOldA (startSys initSys)).deletionWatchers ∧
    (onUnmount exOldA (onMount exOldA (startSys initSys))).isSome = true := by
  have h := registry_covers_map (onMount exOldA (startSys initSys))
    (Reachable.step
      (Reachable.step Reachable.init (Step.start initSys rfl))
      (Step.mount (startSys initSys) exOldA rfl))
  exact ⟨h.1 "/a" exOldA (by decide), h.2 "/a" exOldA (by decide)⟩

end Mountie
